import Mathlib

/-
Verification of the suggestion-to-diff mapping and replay engine of
smarteditor-ghclient.  Python strings are modelled as `List Char`; the
functions below are shallow embeddings of the corresponding functions in
smarteditor-ghclient.py (side effects such as posting review comments or
writing files are modelled as explicitly returned values).
-/

namespace SmartEditorGhClient

/-- Whitespace test used by the single-whitespace atom of the comment
regex on line 123 of smarteditor-ghclient.py (ASCII whitespace as
recognised by Python's re module). -/
def pythonIsSpace (c : Char) : Bool :=
  c == ' ' || c == '\t' || c == '\n' || c == '\r' || c == '\x0b' || c == '\x0c'

/-- Literal marker preceding the first capture group of the comment regex
(line 123 of smarteditor-ghclient.py). -/
def origMarker : List Char := "**Original:**".toList

/-- Literal marker (with its leading newline) separating the first and
second capture groups of the comment regex. -/
def revMarker : List Char := "\n**Revised:**".toList

/-- Literal marker (with its leading newline) terminating the second
capture group of the comment regex. -/
def explMarker : List Char := "\n**Explanation:**".toList

/-- Violation record returned by the SmartEditor service: three string
fields, as consumed by format_smarteditor_suggestions (line 69). -/
structure Violation where
  original_sentence : List Char
  revised_sentence : List Char
  clear_explanation : List Char
deriving DecidableEq

/-- Embedding of format_smarteditor_suggestions (smarteditor-ghclient.py
lines 58-72): each violation is rendered by the f-string
`**Original:** o\n**Revised:** r\n**Explanation:** e\n\n` and the
resulting blocks are joined with a single newline. -/
def format_smarteditor_suggestions (violations : List Violation) : List Char :=
  List.intercalate ['\n'] (violations.map fun violation =>
    "**Original:** ".toList ++ violation.original_sentence
      ++ "\n**Revised:** ".toList ++ violation.revised_sentence
      ++ "\n**Explanation:** ".toList ++ violation.clear_explanation
      ++ "\n\n".toList)

/-- Consume a literal marker at the head of the input, returning the
remainder, or `none` when the marker is not present. -/
def dropMarker (p s : List Char) : Option (List Char) :=
  if p.isPrefixOf s then some (s.drop p.length) else none

/-- Substring test, modelling Python's `needle in s`. -/
def containsSub (needle : List Char) : List Char → Bool
  | [] => needle.isEmpty
  | c :: t => needle.isPrefixOf (c :: t) || containsSub needle t

/-- Scan left to right for the first occurrence of `needle`; return the
text before it and the text after it.  This models a lazy capture group
immediately followed by the literal `needle` in the comment regex. -/
def splitFirst (needle : List Char) : List Char → Option (List Char × List Char)
  | [] =>
    match dropMarker needle [] with
    | some rest => some ([], rest)
    | none => none
  | c :: t =>
    match dropMarker needle (c :: t) with
    | some rest => some ([], rest)
    | none => (splitFirst needle t).map fun pr => (c :: pr.1, pr.2)

/-- Attempt, at the current position, the regex tail
`\n\*\*Revised:\*\*` + whitespace + lazy group + `\n\*\*Explanation:\*\*`:
on success return the second capture group and the remainder after the
explanation marker. -/
def tryRevisedHere (s : List Char) : Option (List Char × List Char) :=
  match dropMarker revMarker s with
  | some (c :: u) => if pythonIsSpace c then splitFirst explMarker u else none
  | some [] => none
  | none => none

/-- Lazy scan for the revised-sentence marker: the first position at which
`tryRevisedHere` succeeds ends the first capture group.  Returns the first
capture group, the second capture group, and the remainder. -/
def scanRevised : List Char → Option (List Char × List Char × List Char)
  | [] =>
    match tryRevisedHere [] with
    | some pr => some ([], pr.1, pr.2)
    | none => none
  | c :: t =>
    match tryRevisedHere (c :: t) with
    | some pr => some ([], pr.1, pr.2)
    | none => (scanRevised t).map fun pr => (c :: pr.1, pr.2.1, pr.2.2)

/-- Attempt a full match of the comment regex at the current position:
`\*\*Original:\*\*` + whitespace, then the lazy groups.  Returns the two
captured groups and the remainder of the input after the match. -/
def matchAt (s : List Char) : Option (List Char × List Char × List Char) :=
  match dropMarker origMarker s with
  | some (c :: u) => if pythonIsSpace c then scanRevised u else none
  | some [] => none
  | none => none

/-- Fuel-indexed scan implementing `re.findall`: attempt a match at every
position from left to right, resuming after the end of each match
(matches do not overlap). -/
def findallF : Nat → List Char → List (List Char × List Char)
  | 0, _ => []
  | fuel + 1, s =>
    match matchAt s with
    | some pr => (pr.1, pr.2.1) :: findallF fuel pr.2.2
    | none =>
      match s with
      | [] => []
      | _ :: t => findallF fuel t

/-- Embedding of parse_smarteditor_comment (smarteditor-ghclient.py lines
110-131): `re.findall` of the comment regex over the comment body,
returning the list of (original, revised) capture pairs in match order.
The file_path argument of the Python function only affects logging and is
omitted. -/
def parse_smarteditor_comment (comment_body : List Char) : List (List Char × List Char) :=
  findallF comment_body.length comment_body

/-- Python's `str.find` for a single character: index of the first
occurrence, or -1 when absent (used on line 101). -/
def pyFind (line : List Char) (c : Char) : Int :=
  match line.findIdx? (· == c) with
  | some k => (k : Int)
  | none => -1

/-- Fuel-indexed global left-to-right non-overlapping replacement for a
non-empty pattern, the scan underlying Python's `str.replace`; the fuel
is irrelevant as long as it bounds the length of the input. -/
def replaceF (old new : List Char) : Nat → List Char → List Char
  | 0, _ => []
  | _ + 1, [] => []
  | fuel + 1, c :: t =>
    match old with
    | [] => c :: t
    | _ :: _ =>
      if old.isPrefixOf (c :: t) then new ++ replaceF old new fuel (t.drop (old.length - 1))
      else c :: replaceF old new fuel t

/-- Embedding of Python's `str.replace(old, new)` (all occurrences): for
an empty pattern the replacement is inserted at every character boundary,
including before the first and after the last character; otherwise the
string is scanned left to right replacing non-overlapping occurrences. -/
def pyReplace (s old new : List Char) : List Char :=
  if old.isEmpty then new ++ s.flatMap (fun c => c :: new)
  else replaceF old new s.length s

/-- Text of a matched diff line as used on line 101 of
smarteditor-ghclient.py: `line[line.find('+')+1:]`, i.e. everything after
the first occurrence of '+', the whole line when '+' is absent. -/
def diffLineText (line : List Char) : List Char :=
  line.drop (pyFind line '+' + 1).toNat

/-- Review-comment body built on lines 102-105 for one matched diff
line: a fenced suggestion block holding the updated line followed by the
explanation. -/
def reviewMessage (line : List Char) (v : Violation) : List Char :=
  "**Suggested Change:**\n```suggestion\n".toList
    ++ pyReplace (diffLineText line) v.original_sentence v.revised_sentence
    ++ "\n```\n".toList ++ "**Explanation:** ".toList ++ v.clear_explanation

/-- Embedding of the diff-anchoring loop of post_review_comment_on_violation
(smarteditor-ghclient.py lines 97-107): the patch is an ordered list of
diff lines; for every enumerated line whose text contains the violation's
original sentence, a review comment is emitted at that 0-based position
(pr.create_review_comment is modelled as appending the pair of position
and message to the returned list). -/
def post_review_comment_on_violation (diff_lines : List (List Char)) (v : Violation) :
    List (Nat × List Char) :=
  diff_lines.enum.filterMap fun il =>
    if containsSub v.original_sentence il.2 then some (il.1, reviewMessage il.2 v)
    else none

/-- Loop body of the replay loop of commit_edited_file
(smarteditor-ghclient.py lines 168-174): a pair whose original occurs in
the current content replaces all its occurrences and increments the
counter, any other pair is skipped. -/
def replayStep (acc : List Char × Nat) (s : List Char × List Char) : List Char × Nat :=
  if containsSub s.1 acc.1 then (pyReplace acc.1 s.1 s.2, acc.2 + 1) else acc

/-- Embedding of the replay loop of commit_edited_file
(smarteditor-ghclient.py lines 167-174): fold replayStep over the
suggestion pairs, starting from the file content and a zero counter. -/
def commit_edited_file_replay (content : List Char)
    (suggestions : List (List Char × List Char)) : List Char × Nat :=
  suggestions.foldl replayStep (content, 0)

/-- Embedding of the persistence decision of commit_edited_file
(smarteditor-ghclient.py lines 176-184): `some c` means the file is
rewritten with content c and commit_and_push is invoked, `none` means
neither the write nor the commit happens. -/
def commit_edited_file_persist (content : List Char)
    (suggestions : List (List Char × List Char)) : Option (List Char) :=
  let res := commit_edited_file_replay content suggestions
  if res.2 > 0 then some res.1 else none

/-- Three labelled lines of one violation, without any trailing blank
line (used to state the exact shape of the rendered digest). -/
def violationTriple (v : Violation) : List Char :=
  "**Original:** ".toList ++ v.original_sentence
    ++ "\n**Revised:** ".toList ++ v.revised_sentence
    ++ "\n**Explanation:** ".toList ++ v.clear_explanation

/-- Modelled from the spec: digest rendering as the spec describes it,
"concatenates each violation's three labeled lines, separated by a blank
line" — blocks joined by exactly one blank line (refinement reference for
the digest-separation claim; the source implementation is
format_smarteditor_suggestions above). -/
def render_digest_spec (violations : List Violation) : List Char :=
  List.intercalate "\n\n".toList (violations.map violationTriple)

/-! ### Shape facts about the literal markers -/

lemma origMarker_shape : origMarker = '*' :: "*Original:**".toList := rfl

lemma revMarker_shape : revMarker = '\n' :: "**Revised:**".toList := rfl

lemma explMarker_shape : explMarker = '\n' :: "**Explanation:**".toList := rfl

lemma origHead_toList : "**Original:** ".toList = origMarker ++ [' '] := rfl

lemma revHead_toList : "\n**Revised:** ".toList = revMarker ++ [' '] := rfl

lemma explHead_toList : "\n**Explanation:** ".toList = explMarker ++ [' '] := rfl

lemma twoNl_toList : "\n\n".toList = ['\n', '\n'] := rfl

/-! ### Generic facts about the scanning primitives -/

lemma containsSub_cons_false {n : List Char} {c : Char} {t : List Char}
    (h : containsSub n (c :: t) = false) :
    n.isPrefixOf (c :: t) = false ∧ containsSub n t = false := by
  simpa [containsSub] using h

lemma isPrefixOf_true_iff : ∀ {l₁ l₂ : List Char}, l₁.isPrefixOf l₂ = true ↔ l₁ <+: l₂ := by
  intro l₁
  induction l₁ with
  | nil =>
    intro l₂
    cases l₂ with
    | nil => exact ⟨fun _ => List.nil_prefix, fun _ => rfl⟩
    | cons b t₂ => exact ⟨fun _ => List.nil_prefix, fun _ => rfl⟩
  | cons a t ih =>
    intro l₂
    cases l₂ with
    | nil =>
      show (false = true) ↔ (a :: t) <+: ([] : List Char)
      simp
    | cons b t₂ =>
      show ((a == b) && t.isPrefixOf t₂) = true ↔ (a :: t) <+: (b :: t₂)
      rw [Bool.and_eq_true, beq_iff_eq, List.cons_prefix_cons]
      exact and_congr Iff.rfl ih

lemma isPrefixOf_append_left {n L X : List Char} (h : n.isPrefixOf (L ++ X) = true)
    (hlen : n.length ≤ L.length) : n.isPrefixOf L = true := by
  rw [isPrefixOf_true_iff] at h ⊢
  exact List.prefix_of_prefix_length_le h (List.prefix_append L X) hlen

/-- When a pattern extends past the text block it starts in, the first
character after the block is a character of the pattern. -/
lemma prefixOf_spill {n L : List Char} {x : Char} {X : List Char}
    (h : n.isPrefixOf (L ++ x :: X) = true) (hlen : L.length < n.length) :
    ∃ u, n = L ++ x :: u := by
  rw [isPrefixOf_true_iff] at h
  have hn := List.prefix_iff_eq_take.mp h
  rw [List.take_append_eq_append_take, List.take_of_length_le (Nat.le_of_lt hlen)] at hn
  obtain ⟨k, hk⟩ : ∃ k, n.length - L.length = k + 1 := ⟨n.length - L.length - 1, by omega⟩
  rw [hk] at hn
  exact ⟨X.take k, by simpa using hn⟩

/-- A pattern whose first character appears nowhere else in it cannot
match strictly before an explicit occurrence of itself. -/
lemma mid_not_prefixOf {c₀ : Char} {nt L Y : List Char} (hL : L ≠ [])
    (hc : c₀ ∉ nt) (hcont : containsSub (c₀ :: nt) L = false) :
    (c₀ :: nt).isPrefixOf (L ++ ((c₀ :: nt) ++ Y)) = false := by
  cases hx : (c₀ :: nt).isPrefixOf (L ++ ((c₀ :: nt) ++ Y)) with
  | false => rfl
  | true =>
    exfalso
    by_cases hlen : (c₀ :: nt).length ≤ L.length
    · have hpre := isPrefixOf_append_left hx hlen
      cases L with
      | nil => exact hL rfl
      | cons a t =>
        have := (containsSub_cons_false hcont).1
        rw [hpre] at this
        cases this
    · have hspill := prefixOf_spill (x := c₀) (X := nt ++ Y)
        (by simpa using hx) (Nat.lt_of_not_le hlen)
      obtain ⟨u, hu⟩ := hspill
      cases L with
      | nil => exact hL rfl
      | cons a t =>
        rw [List.cons_append] at hu
        have : nt = t ++ c₀ :: u := by
          injection hu
        exact hc (this ▸ List.mem_append_right t (List.mem_cons_self c₀ u))

lemma dropMarker_eq_some {p s t : List Char} (h : dropMarker p s = some t) : s = p ++ t := by
  unfold dropMarker at h
  by_cases hp : p.isPrefixOf s = true
  · rw [if_pos hp] at h
    obtain ⟨u, hu⟩ := isPrefixOf_true_iff.mp hp
    injection h with h
    rw [← hu, List.drop_left] at h
    rw [← hu, h]
  · rw [if_neg hp] at h
    cases h

lemma dropMarker_append (p t : List Char) : dropMarker p (p ++ t) = some t := by
  unfold dropMarker
  rw [if_pos (isPrefixOf_true_iff.mpr (List.prefix_append p t)), List.drop_left]

lemma dropMarker_none {p s : List Char} (h : p.isPrefixOf s = false) :
    dropMarker p s = none := by
  unfold dropMarker
  rw [if_neg]
  simp [h]

/-! ### splitFirst: soundness and behaviour on clean text -/

lemma splitFirst_clean {c₀ : Char} {nt : List Char} (hc : c₀ ∉ nt) :
    ∀ {a : List Char} (b : List Char), containsSub (c₀ :: nt) a = false →
      splitFirst (c₀ :: nt) (a ++ ((c₀ :: nt) ++ b)) = some (a, b) := by
  intro a
  induction a with
  | nil =>
    intro b _
    rw [List.nil_append, List.cons_append, splitFirst,
      show c₀ :: (nt ++ b) = (c₀ :: nt) ++ b from rfl, dropMarker_append]
  | cons x a' ih =>
    intro b hcont
    have hfalse : (c₀ :: nt).isPrefixOf ((x :: a') ++ ((c₀ :: nt) ++ b)) = false :=
      mid_not_prefixOf (by simp) hc hcont
    rw [List.cons_append, splitFirst,
      show x :: (a' ++ ((c₀ :: nt) ++ b)) = (x :: a') ++ ((c₀ :: nt) ++ b) from rfl,
      dropMarker_none hfalse, ih b (containsSub_cons_false hcont).2]
    rfl

lemma splitFirst_sound {n : List Char} :
    ∀ {s a b : List Char}, splitFirst n s = some (a, b) → s = a ++ (n ++ b) := by
  intro s
  induction s with
  | nil =>
    intro a b h
    unfold splitFirst at h
    cases hd : dropMarker n [] with
    | none => rw [hd] at h; cases h
    | some rest =>
      rw [hd] at h
      injection h with h
      have hnil := dropMarker_eq_some hd
      cases h
      rcases List.append_eq_nil.mp hnil.symm with ⟨rfl, rfl⟩
      rfl
  | cons c t ih =>
    intro a b h
    unfold splitFirst at h
    cases hd : dropMarker n (c :: t) with
    | some rest =>
      rw [hd] at h
      injection h with h
      cases h
      rw [List.nil_append]
      exact dropMarker_eq_some hd
    | none =>
      rw [hd] at h
      cases hsp : splitFirst n t with
      | none => rw [hsp] at h; cases h
      | some pr =>
        rw [hsp] at h
        injection h with h
        cases h
        have ht := ih (a := pr.1) (b := pr.2) (by rw [hsp])
        rw [List.cons_append, ← ht]

/-! ### scanRevised and matchAt: soundness and behaviour on clean text -/

lemma explMarker_head_notMem : '\n' ∉ "**Explanation:**".toList := by decide

lemma revMarker_head_notMem : '\n' ∉ "**Revised:**".toList := by decide

lemma tryRevisedHere_clean {r : List Char} (rest : List Char)
    (hr : containsSub explMarker r = false) :
    tryRevisedHere (revMarker ++ ' ' :: (r ++ (explMarker ++ rest))) = some (r, rest) := by
  unfold tryRevisedHere
  rw [dropMarker_append]
  dsimp only
  rw [if_pos (by decide : pythonIsSpace ' ' = true), explMarker_shape]
  exact splitFirst_clean explMarker_head_notMem rest (by rw [← explMarker_shape]; exact hr)

lemma tryRevisedHere_sound {s : List Char} {pr : List Char × List Char}
    (h : tryRevisedHere s = some pr) :
    ∃ c, pythonIsSpace c = true ∧ s = revMarker ++ c :: (pr.1 ++ (explMarker ++ pr.2)) := by
  unfold tryRevisedHere at h
  cases hd : dropMarker revMarker s with
  | none => rw [hd] at h; cases h
  | some u =>
    rw [hd] at h
    cases u with
    | nil => cases h
    | cons c u' =>
      dsimp only at h
      by_cases hsp : pythonIsSpace c = true
      · rw [if_pos hsp] at h
        have hu := splitFirst_sound (a := pr.1) (b := pr.2) (by rw [h])
        refine ⟨c, hsp, ?_⟩
        rw [dropMarker_eq_some hd, hu]
      · rw [if_neg hsp] at h
        cases h

lemma scanRevised_clean :
    ∀ {a : List Char} (r rest : List Char), containsSub revMarker a = false →
      containsSub explMarker r = false →
      scanRevised (a ++ (revMarker ++ ' ' :: (r ++ (explMarker ++ rest)))) = some (a, r, rest) := by
  intro a
  induction a with
  | nil =>
    intro r rest _ hr
    rw [List.nil_append, revMarker_shape, List.cons_append, scanRevised,
      show '\n' :: ("**Revised:**".toList ++ ' ' :: (r ++ (explMarker ++ rest)))
        = ('\n' :: "**Revised:**".toList) ++ ' ' :: (r ++ (explMarker ++ rest)) from rfl,
      ← revMarker_shape, tryRevisedHere_clean rest hr]
  | cons x a' ih =>
    intro r rest ha hr
    have hfalse : revMarker.isPrefixOf
        ((x :: a') ++ (revMarker ++ ' ' :: (r ++ (explMarker ++ rest)))) = false := by
      rw [revMarker_shape]
      exact mid_not_prefixOf (by simp) revMarker_head_notMem
        (by rw [← revMarker_shape]; exact ha)
    have htry : tryRevisedHere
        ((x :: a') ++ (revMarker ++ ' ' :: (r ++ (explMarker ++ rest)))) = none := by
      unfold tryRevisedHere
      rw [dropMarker_none hfalse]
    rw [List.cons_append, scanRevised,
      show x :: (a' ++ (revMarker ++ ' ' :: (r ++ (explMarker ++ rest))))
        = (x :: a') ++ (revMarker ++ ' ' :: (r ++ (explMarker ++ rest))) from rfl,
      htry, ih r rest (containsSub_cons_false ha).2 hr]
    rfl

lemma scanRevised_sound :
    ∀ {s : List Char} {tr : List Char × List Char × List Char},
      scanRevised s = some tr →
      ∃ c, pythonIsSpace c = true ∧
        s = tr.1 ++ (revMarker ++ c :: (tr.2.1 ++ (explMarker ++ tr.2.2))) := by
  intro s
  induction s with
  | nil =>
    intro tr h
    unfold scanRevised at h
    cases ht : tryRevisedHere [] with
    | none => rw [ht] at h; cases h
    | some pr =>
      rw [ht] at h
      injection h with h
      cases h
      obtain ⟨c, hc, hs⟩ := tryRevisedHere_sound ht
      exact ⟨c, hc, by rw [List.nil_append]; exact hs⟩
  | cons x t ih =>
    intro tr h
    unfold scanRevised at h
    cases ht : tryRevisedHere (x :: t) with
    | some pr =>
      rw [ht] at h
      injection h with h
      cases h
      obtain ⟨c, hc, hs⟩ := tryRevisedHere_sound ht
      exact ⟨c, hc, by rw [List.nil_append]; exact hs⟩
    | none =>
      rw [ht] at h
      cases hsc : scanRevised t with
      | none => rw [hsc] at h; cases h
      | some pr =>
        rw [hsc] at h
        injection h with h
        cases h
        obtain ⟨c, hc, hs⟩ := ih hsc
        exact ⟨c, hc, by rw [List.cons_append, ← hs]⟩

lemma matchAt_clean {o r : List Char} (rest : List Char)
    (ho : containsSub revMarker o = false) (hr : containsSub explMarker r = false) :
    matchAt (origMarker ++ ' ' :: (o ++ (revMarker ++ ' ' :: (r ++ (explMarker ++ rest)))))
      = some (o, r, rest) := by
  unfold matchAt
  rw [dropMarker_append]
  dsimp only
  rw [if_pos (by decide : pythonIsSpace ' ' = true)]
  exact scanRevised_clean r rest ho hr

lemma matchAt_sound {s : List Char} {tr : List Char × List Char × List Char}
    (h : matchAt s = some tr) :
    ∃ c₁ c₂, pythonIsSpace c₁ = true ∧ pythonIsSpace c₂ = true ∧
      s = origMarker ++ c₁ :: (tr.1 ++ (revMarker ++ c₂ :: (tr.2.1 ++ (explMarker ++ tr.2.2)))) := by
  unfold matchAt at h
  cases hd : dropMarker origMarker s with
  | none => rw [hd] at h; cases h
  | some u =>
    rw [hd] at h
    cases u with
    | nil => cases h
    | cons c u' =>
      dsimp only at h
      by_cases hsp : pythonIsSpace c = true
      · rw [if_pos hsp] at h
        obtain ⟨c₂, hc₂, hu⟩ := scanRevised_sound h
        exact ⟨c, c₂, hsp, hc₂, by rw [dropMarker_eq_some hd, hu]⟩
      · rw [if_neg hsp] at h
        cases h

lemma matchAt_length {s : List Char} {tr : List Char × List Char × List Char}
    (h : matchAt s = some tr) : tr.2.2.length < s.length := by
  obtain ⟨c₁, c₂, _, _, hs⟩ := matchAt_sound h
  rw [hs]
  simp [origMarker]
  omega

lemma matchAt_nil : matchAt [] = none := by decide

/-! ### Recursion equations for the findall scan -/

lemma findallF_succ (fuel : Nat) (s : List Char) :
    findallF (fuel + 1) s =
      match matchAt s with
      | some tr => (tr.1, tr.2.1) :: findallF fuel tr.2.2
      | none =>
        match s with
        | [] => []
        | _ :: t => findallF fuel t := rfl

lemma findallF_congr : ∀ (f₁ f₂ : Nat) (s : List Char), s.length ≤ f₁ → s.length ≤ f₂ →
    findallF f₁ s = findallF f₂ s := by
  intro f₁
  induction f₁ with
  | zero =>
    intro f₂ s hs₁ _
    obtain rfl : s = [] := List.length_eq_zero.mp (Nat.le_zero.mp hs₁)
    cases f₂ with
    | zero => rfl
    | succ m => rfl
  | succ k ih =>
    intro f₂ s hs₁ hs₂
    cases f₂ with
    | zero =>
      obtain rfl : s = [] := List.length_eq_zero.mp (Nat.le_zero.mp hs₂)
      rfl
    | succ m =>
      rw [findallF_succ, findallF_succ]
      cases hm : matchAt s with
      | some tr =>
        dsimp only
        have hlen := matchAt_length hm
        exact congrArg _ (ih m tr.2.2 (by omega) (by omega))
      | none =>
        dsimp only
        cases s with
        | nil => rfl
        | cons c t =>
          exact ih m t (by simpa using Nat.le_of_succ_le_succ hs₁)
            (by simpa using Nat.le_of_succ_le_succ hs₂)

lemma parse_nil : parse_smarteditor_comment [] = [] := rfl

lemma parse_match {s : List Char} {tr : List Char × List Char × List Char}
    (h : matchAt s = some tr) :
    parse_smarteditor_comment s = (tr.1, tr.2.1) :: parse_smarteditor_comment tr.2.2 := by
  unfold parse_smarteditor_comment
  have hlen := matchAt_length h
  obtain ⟨k, hk⟩ : ∃ k, s.length = k + 1 := ⟨s.length - 1, by omega⟩
  rw [hk, findallF_succ, h]
  dsimp only
  exact congrArg _ (findallF_congr k tr.2.2.length tr.2.2 (by omega) (Nat.le_refl _))

lemma parse_cons_none {c : Char} {t : List Char} (h : matchAt (c :: t) = none) :
    parse_smarteditor_comment (c :: t) = parse_smarteditor_comment t := by
  unfold parse_smarteditor_comment
  rw [List.length_cons, findallF_succ, h]

/-! ### Skipping text in which no match can start -/

lemma parse_skip : ∀ (junk s : List Char),
    (∀ p, p < junk.length → origMarker.isPrefixOf ((junk ++ s).drop p) = false) →
    parse_smarteditor_comment (junk ++ s) = parse_smarteditor_comment s := by
  intro junk
  induction junk with
  | nil => intro s _; rw [List.nil_append]
  | cons c j ih =>
    intro s h
    have h0 := h 0 (by simp)
    rw [List.drop_zero] at h0
    have hm : matchAt ((c :: j) ++ s) = none := by
      unfold matchAt
      rw [dropMarker_none h0]
    rw [List.cons_append] at hm ⊢
    rw [parse_cons_none hm]
    exact ih s fun p hp => by
      have := h (p + 1) (by simpa using Nat.succ_lt_succ hp)
      simpa using this

lemma no_marker_at_newlines {n₀ : Char} (ntail : List Char) (hn : n₀ ≠ '\n') :
    ∀ (m s : List Char), (∀ c ∈ m, c = '\n') →
      ∀ p, p < m.length → (n₀ :: ntail).isPrefixOf ((m ++ s).drop p) = false := by
  intro m
  induction m with
  | nil => intro s _ p hp; simp at hp
  | cons c m' ih =>
    intro s hm p hp
    cases p with
    | zero =>
      obtain rfl : c = '\n' := hm c (by simp)
      rw [List.drop_zero, List.cons_append, List.isPrefixOf]
      simp [hn]
    | succ q =>
      rw [List.cons_append, List.drop_succ_cons]
      exact ih s (fun c hc => hm c (by simp [hc])) q (by simpa using Nat.lt_of_succ_lt_succ hp)

lemma newline_notMem_origMarker : '\n' ∉ origMarker := by decide

lemma no_orig_in_gap : ∀ (e : List Char), containsSub origMarker e = false →
    ∀ (m s : List Char), (∀ c ∈ m, c = '\n') → m ≠ [] →
      ∀ p, p < (e ++ m).length → origMarker.isPrefixOf ((e ++ (m ++ s)).drop p) = false := by
  intro e
  induction e with
  | nil =>
    intro _ m s hm _ p hp
    rw [List.nil_append]
    rw [List.nil_append] at hp
    exact origMarker_shape ▸ no_marker_at_newlines _ (by decide) m s hm p hp
  | cons c e' ih =>
    intro he m s hm hmne p hp
    cases p with
    | zero =>
      rw [List.drop_zero]
      cases hx : origMarker.isPrefixOf ((c :: e') ++ (m ++ s)) with
      | false => rfl
      | true =>
        exfalso
        by_cases hlen : origMarker.length ≤ (c :: e').length
        · have hpre := isPrefixOf_append_left hx hlen
          have := (containsSub_cons_false he).1
          rw [hpre] at this
          cases this
        · cases m with
          | nil => exact hmne rfl
          | cons m₀ m'' =>
            obtain rfl : m₀ = '\n' := hm m₀ (by simp)
            obtain ⟨u, hu⟩ := prefixOf_spill (x := '\n') (X := m'' ++ s)
              (by simpa using hx) (Nat.lt_of_not_le hlen)
            exact newline_notMem_origMarker
              (hu ▸ List.mem_append_right (c :: e') (List.mem_cons_self '\n' u))
    | succ q =>
      rw [List.cons_append, List.drop_succ_cons]
      exact ih (containsSub_cons_false he).2 m s hm hmne q
        (by simpa using Nat.lt_of_succ_lt_succ hp)

lemma parse_skip_gap {e : List Char} (m s : List Char) (he : containsSub origMarker e = false)
    (hm : ∀ c ∈ m, c = '\n') (hmne : m ≠ []) :
    parse_smarteditor_comment ((' ' :: (e ++ m)) ++ s) = parse_smarteditor_comment s := by
  apply parse_skip
  intro p hp
  cases p with
  | zero =>
    rw [List.drop_zero, List.cons_append, origMarker_shape, List.isPrefixOf]
    simp
  | succ q =>
    rw [List.cons_append, List.drop_succ_cons, List.append_assoc]
    exact no_orig_in_gap e he m s hm hmne q (by simpa using Nat.lt_of_succ_lt_succ hp)

/-! ### Exact shape of the rendered digest -/

lemma intercalate_cons (sep a : List Char) (l : List (List Char)) :
    List.intercalate sep (a :: l) =
      a ++ (if l = [] then [] else sep ++ List.intercalate sep l) := by
  cases l with
  | nil => simp [List.intercalate, List.intersperse]
  | cons b t => simp [List.intercalate]

lemma format_eq_block (v : Violation) (vs : List Violation) :
    format_smarteditor_suggestions (v :: vs) =
      origMarker ++ ' ' :: (v.original_sentence ++ (revMarker ++ ' ' :: (v.revised_sentence
        ++ (explMarker ++ (' ' :: (v.clear_explanation ++ (['\n', '\n'] ++
          (if vs = [] then [] else '\n' :: format_smarteditor_suggestions vs)))))))) := by
  rw [format_smarteditor_suggestions, List.map_cons, intercalate_cons]
  rw [show List.intercalate ['\n'] (List.map (fun violation =>
      "**Original:** ".toList ++ violation.original_sentence
        ++ "\n**Revised:** ".toList ++ violation.revised_sentence
        ++ "\n**Explanation:** ".toList ++ violation.clear_explanation
        ++ "\n\n".toList) vs) = format_smarteditor_suggestions vs from rfl]
  cases vs with
  | nil =>
    simp [origMarker, revMarker, explMarker, List.append_assoc]
  | cons w vs' =>
    rw [if_neg (by simp), if_neg (by simp)]
    simp [origMarker, revMarker, explMarker, List.append_assoc]

/-- Sufficient conditions on one violation for its block to round-trip:
its original sentence contains no revised-sentence marker and no
explanation marker, its revised sentence contains no explanation marker,
and its explanation contains no original-sentence marker. -/
def RoundTripSafe (v : Violation) : Prop :=
  containsSub revMarker v.original_sentence = false ∧
    containsSub explMarker v.original_sentence = false ∧
    containsSub explMarker v.revised_sentence = false ∧
    containsSub origMarker v.clear_explanation = false

instance (v : Violation) : Decidable (RoundTripSafe v) := by
  unfold RoundTripSafe
  infer_instance

lemma roundtrip_aux : ∀ (vs : List Violation), (∀ v ∈ vs, RoundTripSafe v) →
    parse_smarteditor_comment (format_smarteditor_suggestions vs)
      = vs.map fun v => (v.original_sentence, v.revised_sentence) := by
  intro vs
  induction vs with
  | nil => intro _; rfl
  | cons v vs' ih =>
    intro h
    obtain ⟨hrev, hoexp, hexp, horig⟩ := h v (List.mem_cons_self v vs')
    have htail := fun v' hv' => h v' (List.mem_cons_of_mem v hv')
    rw [format_eq_block,
      parse_match (matchAt_clean (' ' :: (v.clear_explanation ++ (['\n', '\n'] ++
        (if vs' = [] then [] else '\n' :: format_smarteditor_suggestions vs')))) hrev hexp),
      List.map_cons]
    congr 1
    by_cases hvs : vs' = []
    · subst hvs
      have hskip := parse_skip_gap (e := v.clear_explanation) ['\n', '\n'] [] horig
        (by decide) (by simp)
      rw [List.cons_append] at hskip
      simpa [parse_nil] using hskip
    · rw [if_neg hvs,
        show (['\n', '\n'] : List Char) ++ ('\n' :: format_smarteditor_suggestions vs')
          = ['\n', '\n', '\n'] ++ format_smarteditor_suggestions vs' from rfl,
        ← List.append_assoc,
        show ' ' :: ((v.clear_explanation ++ ['\n', '\n', '\n'])
            ++ format_smarteditor_suggestions vs')
          = (' ' :: (v.clear_explanation ++ ['\n', '\n', '\n']))
            ++ format_smarteditor_suggestions vs' from rfl,
        parse_skip_gap ['\n', '\n', '\n'] _ horig (by decide) (by simp)]
      exact ih htail

/-! ### Structural soundness of every parsed pair -/

lemma parse_sound_aux : ∀ (n : Nat) (s : List Char) (pr : List Char × List Char),
    s.length ≤ n → pr ∈ parse_smarteditor_comment s →
    ∃ u c₁ c₂ t, pythonIsSpace c₁ = true ∧ pythonIsSpace c₂ = true ∧
      s = u ++ (origMarker ++ c₁ :: (pr.1 ++ (revMarker ++ c₂ :: (pr.2 ++ (explMarker ++ t))))) := by
  intro n
  induction n with
  | zero =>
    intro s pr hs hpr
    obtain rfl : s = [] := List.length_eq_zero.mp (Nat.le_zero.mp hs)
    rw [parse_nil] at hpr
    cases hpr
  | succ k ih =>
    intro s pr hs hpr
    cases hm : matchAt s with
    | some tr =>
      rw [parse_match hm] at hpr
      rcases List.mem_cons.mp hpr with heq | hmem
      · obtain ⟨c₁, c₂, h1, h2, hdec⟩ := matchAt_sound hm
        exact ⟨[], c₁, c₂, tr.2.2, h1, h2, by rw [List.nil_append, hdec, heq]⟩
      · have hlen := matchAt_length hm
        obtain ⟨u, c₁, c₂, t, h1, h2, hdec⟩ := ih tr.2.2 pr (by omega) hmem
        obtain ⟨d₁, d₂, g1, g2, hs'⟩ := matchAt_sound hm
        refine ⟨origMarker ++ d₁ :: (tr.1 ++ (revMarker ++ d₂ :: (tr.2.1 ++ (explMarker ++ u)))),
          c₁, c₂, t, h1, h2, ?_⟩
        rw [hs', hdec]
        simp [List.append_assoc]
    | none =>
      cases s with
      | nil => rw [parse_nil] at hpr; cases hpr
      | cons c t =>
        rw [parse_cons_none hm] at hpr
        obtain ⟨u, c₁, c₂, t', h1, h2, hdec⟩ := ih t pr (by simpa using Nat.le_of_succ_le_succ hs) hpr
        exact ⟨c :: u, c₁, c₂, t', h1, h2, by rw [List.cons_append, hdec]⟩

lemma parse_sound {s : List Char} {pr : List Char × List Char}
    (hpr : pr ∈ parse_smarteditor_comment s) :
    ∃ u c₁ c₂ t, pythonIsSpace c₁ = true ∧ pythonIsSpace c₂ = true ∧
      s = u ++ (origMarker ++ c₁ :: (pr.1 ++ (revMarker ++ c₂ :: (pr.2 ++ (explMarker ++ t))))) :=
  parse_sound_aux s.length s pr (Nat.le_refl _) hpr

/-! ### Properties of the replay loop -/

lemma replay_shift : ∀ (ps : List (List Char × List Char)) (c : List Char) (n : Nat),
    ps.foldl replayStep (c, n) =
      ((ps.foldl replayStep (c, 0)).1, n + (ps.foldl replayStep (c, 0)).2) := by
  intro ps
  induction ps with
  | nil => intro c n; rfl
  | cons p t ih =>
    intro c n
    rw [List.foldl_cons, List.foldl_cons]
    by_cases hc : containsSub p.1 c = true
    · have h₁ : replayStep (c, n) p = (pyReplace c p.1 p.2, n + 1) := by
        simp [replayStep, hc]
      have h₂ : replayStep (c, 0) p = (pyReplace c p.1 p.2, 0 + 1) := by
        simp [replayStep, hc]
      rw [h₁, h₂, ih (pyReplace c p.1 p.2) (n + 1), ih (pyReplace c p.1 p.2) (0 + 1)]
      simp only [Prod.mk.injEq, true_and]
      omega
    · have h₁ : replayStep (c, n) p = (c, n) := by
        simp [replayStep, hc]
      have h₂ : replayStep (c, 0) p = (c, 0) := by
        simp [replayStep, hc]
      rw [h₁, h₂]
      exact ih c n

lemma replay_cons_hit {c o r : List Char} {ps : List (List Char × List Char)}
    (hc : containsSub o c = true) :
    commit_edited_file_replay c ((o, r) :: ps) =
      ((commit_edited_file_replay (pyReplace c o r) ps).1,
        (commit_edited_file_replay (pyReplace c o r) ps).2 + 1) := by
  unfold commit_edited_file_replay
  rw [List.foldl_cons]
  have h₁ : replayStep (c, 0) (o, r) = (pyReplace c o r, 0 + 1) := by
    simp [replayStep, hc]
  rw [h₁, replay_shift ps (pyReplace c o r) (0 + 1)]
  simp only [Prod.mk.injEq, true_and]
  omega

lemma replay_cons_miss {c o r : List Char} {ps : List (List Char × List Char)}
    (hc : containsSub o c = false) :
    commit_edited_file_replay c ((o, r) :: ps) = commit_edited_file_replay c ps := by
  unfold commit_edited_file_replay
  rw [List.foldl_cons]
  have h₁ : replayStep (c, 0) (o, r) = (c, 0) := by
    simp [replayStep, hc]
  rw [h₁]

lemma replay_nil (c : List Char) : commit_edited_file_replay c [] = (c, 0) := rfl

lemma replay_count_zero : ∀ (ps : List (List Char × List Char)) (c : List Char),
    (commit_edited_file_replay c ps).2 = 0 → (commit_edited_file_replay c ps).1 = c := by
  intro ps
  induction ps with
  | nil => intro c _; rfl
  | cons p t ih =>
    intro c h
    cases hc : containsSub p.1 c with
    | true =>
      exfalso
      rw [replay_cons_hit hc] at h
      simp at h
    | false =>
      rw [replay_cons_miss hc] at h ⊢
      exact ih c h

lemma replay_all_absent : ∀ (ps : List (List Char × List Char)) (c : List Char),
    (∀ p ∈ ps, containsSub p.1 c = false) → commit_edited_file_replay c ps = (c, 0) := by
  intro ps
  induction ps with
  | nil => intro c _; rfl
  | cons p t ih =>
    intro c h
    rw [replay_cons_miss (h p (List.mem_cons_self p t))]
    exact ih c fun q hq => h q (List.mem_cons_of_mem p hq)

lemma containsSub_nil_left (c : List Char) : containsSub [] c = true := by
  cases c <;> rfl

/-! ### Positions of the emitted review comments -/

lemma post_positions (diff_lines : List (List Char)) (v : Violation) :
    (post_review_comment_on_violation diff_lines v).map Prod.fst =
      (diff_lines.enum.filter fun il => containsSub v.original_sentence il.2).map Prod.fst := by
  unfold post_review_comment_on_violation
  generalize diff_lines.enum = l
  induction l with
  | nil => rfl
  | cons x t ih =>
    by_cases hx : containsSub v.original_sentence x.2 = true
    · simp [List.filterMap_cons, List.filter_cons, hx, ih]
    · simp [List.filterMap_cons, List.filter_cons, hx, ih]

lemma enumFrom_pairwise {α : Type} : ∀ (n : Nat) (l : List α),
    List.Pairwise (fun a b : Nat × α => a.1 < b.1) (List.enumFrom n l) := by
  intro n l
  induction l generalizing n with
  | nil => exact List.Pairwise.nil
  | cons x t ih =>
    exact List.Pairwise.cons
      (fun y hy => Nat.lt_of_lt_of_le (Nat.lt_succ_self n) (List.le_fst_of_mem_enumFrom hy))
      (ih (n + 1))

lemma post_positions_pairwise (diff_lines : List (List Char)) (v : Violation) :
    List.Pairwise (· < ·) ((post_review_comment_on_violation diff_lines v).map Prod.fst) := by
  rw [post_positions]
  exact List.pairwise_map.mpr
    ((enumFrom_pairwise 0 diff_lines).filter (fun il => containsSub v.original_sentence il.2))

/-! ### Claim theorems -/

/-- C1 (counterexample): the round-trip guarantee fails as stated.  The
violation whose original sentence is "A\n**Revised:** B" satisfies the
claim's precondition (neither sentence contains "\n**Explanation:**"),
yet parsing the rendered digest returns the pair
("A", "B\n**Revised:** R") instead of the violation's own pair: the lazy
first capture group stops at the revised-sentence marker embedded in the
original sentence. -/
theorem claim_C1_counterexample :
    parse_smarteditor_comment (format_smarteditor_suggestions
        [⟨"A\n**Revised:** B".toList, "R".toList, "E".toList⟩])
      = [("A".toList, "B\n**Revised:** R".toList)] ∧
    ("A".toList, "B\n**Revised:** R".toList) ≠ ("A\n**Revised:** B".toList, "R".toList) ∧
    containsSub explMarker "A\n**Revised:** B".toList = false ∧
    containsSub explMarker "R".toList = false := by
  decide

/-- C1 (amended): the round-trip holds under the strengthened
precondition — for every violation, the original sentence contains
neither "\n**Revised:**" nor "\n**Explanation:**", the revised sentence
contains no "\n**Explanation:**", and the explanation contains no
"**Original:**".  Then parsing the rendered digest returns exactly the
(original, revised) pairs in order. -/
theorem claim_C1_roundtrip (vs : List Violation) (h : ∀ v ∈ vs, RoundTripSafe v) :
    parse_smarteditor_comment (format_smarteditor_suggestions vs)
      = vs.map fun v => (v.original_sentence, v.revised_sentence) :=
  roundtrip_aux vs h

/-- C1 (witness): the amended round-trip instantiated on a concrete
two-violation list. -/
theorem claim_C1_roundtrip_witness :
    parse_smarteditor_comment (format_smarteditor_suggestions
        [⟨"Hello world.".toList, "Hi world.".toList, "Because style.".toList⟩,
         ⟨"Second one.".toList, "Second fix.".toList, "Reason two.".toList⟩])
      = [("Hello world.".toList, "Hi world.".toList),
         ("Second one.".toList, "Second fix.".toList)] :=
  claim_C1_roundtrip _ (by decide)

/-- C2 (counterexample): first-match anchoring fails — with a two-line
patch in which both lines contain the sentence, a review comment is
emitted for the later line as well (the loop has no break), so the
emitted positions are [0, 1] rather than only position 0. -/
theorem claim_C2_counterexample :
    (post_review_comment_on_violation ["+a hello".toList, "+b hello".toList]
        ⟨"hello".toList, "HELLO".toList, "E".toList⟩).map Prod.fst = [0, 1] ∧
    (post_review_comment_on_violation ["+a hello".toList, "+b hello".toList]
        ⟨"hello".toList, "HELLO".toList, "E".toList⟩).length = 2 ∧
    (2 : Nat) ≠ 1 := by
  decide

/-- C2 (amended): a review comment is emitted at every 0-based position
whose line contains the original sentence (not only the first), the
emitted positions are exactly the matching positions of the enumerated
patch in strictly increasing order, and the procedure is a pure function
of the patch and violation, hence deterministic across repeated calls. -/
theorem claim_C2_anchor_positions :
    (∀ (diff_lines : List (List Char)) (v : Violation),
       (post_review_comment_on_violation diff_lines v).map Prod.fst =
         (diff_lines.enum.filter fun il => containsSub v.original_sentence il.2).map Prod.fst) ∧
    (∀ (diff_lines : List (List Char)) (v : Violation),
       List.Pairwise (· < ·) ((post_review_comment_on_violation diff_lines v).map Prod.fst)) :=
  ⟨post_positions, post_positions_pairwise⟩

/-- C3 (code bug): the underlying file content is taken as
`line[line.find('+')+1:]` — everything after the first '+' anywhere in
the line.  On a line with a leading '+' this strips exactly the diff
marker as the claim says, but a line that does not start with '+' and
contains '+' elsewhere is truncated instead of being kept whole. -/
theorem claim_C3_line_truncation :
    diffLineText "+x hello.".toList = "x hello.".toList ∧
    diffLineText "no plus hello.".toList = "no plus hello.".toList ∧
    diffLineText " a+b hello.".toList = "b hello.".toList ∧
    "b hello.".toList ≠ " a+b hello.".toList := by
  decide

/-- C4: replay processes pairs sequentially against the cumulative
content — a pair whose original occurs replaces all occurrences and adds
exactly one to the applied count, a pair whose original is absent changes
nothing and does not abort the batch, and the concrete scenario
"The cat sat." with ("cat", "dog") yields "The dog sat." with one
application. -/
theorem claim_C4_replay_semantics :
    (∀ (c o r : List Char) (ps : List (List Char × List Char)), containsSub o c = true →
       commit_edited_file_replay c ((o, r) :: ps) =
         ((commit_edited_file_replay (pyReplace c o r) ps).1,
           (commit_edited_file_replay (pyReplace c o r) ps).2 + 1)) ∧
    (∀ (c o r : List Char) (ps : List (List Char × List Char)), containsSub o c = false →
       commit_edited_file_replay c ((o, r) :: ps) = commit_edited_file_replay c ps) ∧
    commit_edited_file_replay "The cat sat.".toList [("cat".toList, "dog".toList)]
      = ("The dog sat.".toList, 1) :=
  ⟨fun _ _ _ _ hc => replay_cons_hit hc, fun _ _ _ _ hc => replay_cons_miss hc, by decide⟩

/-- C4 (witness): the hit equation instantiated on the concrete scenario. -/
theorem claim_C4_replay_semantics_witness :
    commit_edited_file_replay "The cat sat.".toList [("cat".toList, "dog".toList)] =
      ((commit_edited_file_replay
          (pyReplace "The cat sat.".toList "cat".toList "dog".toList) []).1,
        (commit_edited_file_replay
          (pyReplace "The cat sat.".toList "cat".toList "dog".toList) []).2 + 1) :=
  claim_C4_replay_semantics.1 "The cat sat.".toList "cat".toList "dog".toList [] (by decide)

/-- C5: the file is written back and a commit triggered exactly when the
applied count is positive; when no substitution applies (empty pair list
or all originals absent) the resulting content is the original content
and no write or commit happens. -/
theorem claim_C5_persistence_gating :
    (∀ (c : List Char) (ps : List (List Char × List Char)),
       (commit_edited_file_persist c ps).isSome = true ↔
         0 < (commit_edited_file_replay c ps).2) ∧
    (∀ (c : List Char) (ps : List (List Char × List Char)),
       (commit_edited_file_replay c ps).2 = 0 →
         commit_edited_file_persist c ps = none ∧
           (commit_edited_file_replay c ps).1 = c) ∧
    (∀ c : List Char, commit_edited_file_persist c [] = none) ∧
    (∀ (c : List Char) (ps : List (List Char × List Char)),
       (∀ p ∈ ps, containsSub p.1 c = false) → commit_edited_file_persist c ps = none) := by
  refine ⟨fun c ps => ?_, fun c ps h => ?_, fun c => rfl, fun c ps h => ?_⟩
  · unfold commit_edited_file_persist
    by_cases h : 0 < (commit_edited_file_replay c ps).2
    · simp [h]
    · simp [h]
  · have h1 : commit_edited_file_persist c ps = none := by
      unfold commit_edited_file_persist
      simp [h]
    exact ⟨h1, replay_count_zero ps c h⟩
  · unfold commit_edited_file_persist
    rw [replay_all_absent ps c h]
    rfl

/-- C5 (witness): scenario D — a pair whose original is absent leaves the
content unchanged and triggers no persistence. -/
theorem claim_C5_persistence_gating_witness :
    commit_edited_file_persist "The cat sat.".toList [("fox".toList, "wolf".toList)] = none ∧
    (commit_edited_file_replay "The cat sat.".toList
        [("fox".toList, "wolf".toList)]).1 = "The cat sat.".toList :=
  claim_C5_persistence_gating.2.1 "The cat sat.".toList [("fox".toList, "wolf".toList)]
    (by decide)

/-- C6 (counterexample): replay is not unconditionally idempotent.  With
content "a" and pairs [("a","b"), ("b","a")], the first pass returns "a"
with two applications, and the second pass applies both pairs again
(applied = 2, not 0). -/
theorem claim_C6_counterexample :
    commit_edited_file_replay "a".toList
        [("a".toList, "b".toList), ("b".toList, "a".toList)] = ("a".toList, 2) ∧
    (commit_edited_file_replay
        (commit_edited_file_replay "a".toList
          [("a".toList, "b".toList), ("b".toList, "a".toList)]).1
        [("a".toList, "b".toList), ("b".toList, "a".toList)]).2 = 2 ∧
    (2 : Nat) ≠ 0 := by
  decide

/-- C6 (amended): the second pass is a no-op under the premise the claim
itself gives as its justification — when no pair's original occurs in the
once-substituted content, replaying the same pairs again yields an
applied count of zero and leaves the content unchanged.  (The premise is
not implied by the first pass, as the counterexample shows.) -/
theorem claim_C6_idempotent_replay (c : List Char) (ps : List (List Char × List Char))
    (h : ∀ p ∈ ps, containsSub p.1 (commit_edited_file_replay c ps).1 = false) :
    commit_edited_file_replay (commit_edited_file_replay c ps).1 ps
      = ((commit_edited_file_replay c ps).1, 0) :=
  replay_all_absent ps _ h

/-- C6 (witness): idempotence on the concrete scenario where the premise
holds. -/
theorem claim_C6_idempotent_replay_witness :
    commit_edited_file_replay
        (commit_edited_file_replay "The cat sat.".toList
          [("cat".toList, "dog".toList)]).1
        [("cat".toList, "dog".toList)]
      = ((commit_edited_file_replay "The cat sat.".toList
          [("cat".toList, "dog".toList)]).1, 0) :=
  claim_C6_idempotent_replay "The cat sat.".toList [("cat".toList, "dog".toList)] (by decide)

/-- C7 (counterexample): consecutive blocks of the rendered digest are
not separated by exactly one blank line.  For two violations the digest
differs from the one-blank-line rendering (with any of no, one or two
trailing newline characters): each block already ends in two newlines and
the join adds a third. -/
theorem claim_C7_counterexample :
    format_smarteditor_suggestions
        [⟨"a".toList, "b".toList, "c".toList⟩, ⟨"d".toList, "e".toList, "f".toList⟩]
      ≠ render_digest_spec
        [⟨"a".toList, "b".toList, "c".toList⟩, ⟨"d".toList, "e".toList, "f".toList⟩] ∧
    format_smarteditor_suggestions
        [⟨"a".toList, "b".toList, "c".toList⟩, ⟨"d".toList, "e".toList, "f".toList⟩]
      ≠ render_digest_spec
        [⟨"a".toList, "b".toList, "c".toList⟩, ⟨"d".toList, "e".toList, "f".toList⟩]
        ++ "\n".toList ∧
    format_smarteditor_suggestions
        [⟨"a".toList, "b".toList, "c".toList⟩, ⟨"d".toList, "e".toList, "f".toList⟩]
      ≠ render_digest_spec
        [⟨"a".toList, "b".toList, "c".toList⟩, ⟨"d".toList, "e".toList, "f".toList⟩]
        ++ "\n\n".toList := by
  decide

/-- C7 (amended): the digest of a nonempty violation list is the triple
blocks joined by "\n\n\n" — consecutive blocks are separated by exactly
two blank lines — followed by a final "\n\n" (one trailing blank line);
the empty list renders as the empty string. -/
theorem claim_C7_digest_shape :
    format_smarteditor_suggestions [] = [] ∧
    ∀ (vs : List Violation), vs ≠ [] →
      format_smarteditor_suggestions vs =
        List.intercalate "\n\n\n".toList (vs.map violationTriple) ++ "\n\n".toList := by
  refine ⟨rfl, fun vs => ?_⟩
  induction vs with
  | nil => intro h; exact absurd rfl h
  | cons v vs' ih =>
    intro _
    cases vs' with
    | nil =>
      rw [format_eq_block, if_pos rfl]
      simp [violationTriple, List.intercalate, List.intersperse,
        origMarker, revMarker, explMarker, List.append_assoc]
    | cons w t =>
      have hne : (w :: t : List Violation) ≠ [] := by simp
      have hmapne : List.map violationTriple (w :: t) ≠ [] := by simp
      rw [format_eq_block, if_neg hne, List.map_cons, intercalate_cons, if_neg hmapne]
      simp only [List.append_assoc]
      rw [← ih hne]
      simp [violationTriple, origMarker, revMarker, explMarker, List.append_assoc]

/-- C7 (witness): the amended digest shape instantiated on a concrete
two-violation list. -/
theorem claim_C7_digest_shape_witness :
    format_smarteditor_suggestions
        [⟨"a".toList, "b".toList, "c".toList⟩, ⟨"d".toList, "e".toList, "f".toList⟩] =
      List.intercalate "\n\n\n".toList
        (([⟨"a".toList, "b".toList, "c".toList⟩,
           ⟨"d".toList, "e".toList, "f".toList⟩] : List Violation).map violationTriple)
        ++ "\n\n".toList :=
  claim_C7_digest_shape.2 _ (by decide)

/-- C8 (counterexample): a returned original can contain the
"**Original:**" marker — the lazy first capture group extends over an
inner "**Original:**" occurrence when no revised-sentence marker
intervenes, so the no-intervening-marker invariant fails. -/
theorem claim_C8_counterexample :
    parse_smarteditor_comment
        "**Original:** X\n**Original:** Y\n**Revised:** R\n**Explanation:** E".toList
      = [("X\n**Original:** Y".toList, "R".toList)] ∧
    containsSub origMarker "X\n**Original:** Y".toList = true := by
  decide

/-- C8 (amended): every returned pair is captured from the three markers
in strict Original → Revised → Explanation order — the comment body
decomposes around the matched region as "**Original:**", one whitespace
character, the original text, "\n**Revised:**", one whitespace character,
the revised text, and "\n**Explanation:**" — but the captured texts may
themselves contain "**Original:**". -/
theorem claim_C8_marker_order (body : List Char) (pr : List Char × List Char)
    (h : pr ∈ parse_smarteditor_comment body) :
    ∃ u c₁ c₂ t, pythonIsSpace c₁ = true ∧ pythonIsSpace c₂ = true ∧
      body = u ++ (origMarker ++ c₁ :: (pr.1 ++ (revMarker ++ c₂ :: (pr.2 ++ (explMarker ++ t))))) :=
  parse_sound h

/-- C8 (witness): the marker-order decomposition instantiated on a
concrete comment body and parsed pair. -/
theorem claim_C8_marker_order_witness :
    ∃ u c₁ c₂ t, pythonIsSpace c₁ = true ∧ pythonIsSpace c₂ = true ∧
      "**Original:** a\n**Revised:** b\n**Explanation:** c".toList =
        u ++ (origMarker ++ c₁ :: ("a".toList ++ (revMarker ++ c₂ ::
          ("b".toList ++ (explMarker ++ t))))) :=
  claim_C8_marker_order "**Original:** a\n**Revised:** b\n**Explanation:** c".toList
    ("a".toList, "b".toList) (by decide)

/-- C9: a body in which the pattern finds nothing parses to the empty
sequence (the parser is total and cannot raise), and replaying the empty
sequence performs no write and no commit and leaves the content
untouched. -/
theorem claim_C9_empty_parse :
    (∀ (body c : List Char), parse_smarteditor_comment body = [] →
       commit_edited_file_persist c (parse_smarteditor_comment body) = none ∧
       (commit_edited_file_replay c (parse_smarteditor_comment body)).1 = c) ∧
    parse_smarteditor_comment "no suggestions found here".toList = [] := by
  refine ⟨fun body c h => ?_, by decide⟩
  rw [h]
  exact ⟨rfl, rfl⟩

/-- C9 (witness): the no-side-effect conclusion instantiated on a
concrete markerless body and concrete content. -/
theorem claim_C9_empty_parse_witness :
    commit_edited_file_persist "The cat sat.".toList
        (parse_smarteditor_comment "no suggestions found here".toList) = none ∧
    (commit_edited_file_replay "The cat sat.".toList
        (parse_smarteditor_comment "no suggestions found here".toList)).1
      = "The cat sat.".toList :=
  claim_C9_empty_parse.1 "no suggestions found here".toList "The cat sat.".toList (by decide)

/-- C10: the parser can return a pair with an empty original (from a body
whose original line is blank); the empty string occurs in every content,
replaying such a pair always counts one application, and the global
replace inserts the revised text at every character boundary, including
before the first and after the last character. -/
theorem claim_C10_empty_original :
    parse_smarteditor_comment "**Original:** \n**Revised:** x\n**Explanation:** y".toList
      = [([], "x".toList)] ∧
    (∀ c : List Char, containsSub [] c = true) ∧
    (∀ c r : List Char, commit_edited_file_replay c [([], r)] = (pyReplace c [] r, 1)) ∧
    (∀ r : List Char, pyReplace [] [] r = r) ∧
    (∀ (ch : Char) (c r : List Char), pyReplace (ch :: c) [] r = r ++ ch :: pyReplace c [] r) := by
  refine ⟨by decide, containsSub_nil_left, fun c r => ?_, fun r => by simp [pyReplace], ?_⟩
  · rw [replay_cons_hit (containsSub_nil_left c)]
    rfl
  · intro ch c r
    simp [pyReplace, List.append_assoc]

end SmartEditorGhClient
